import Mathlib

/-!
Verification development for the Companies House director-search pipeline
(src/main.py).  Every Python function relevant to the claims is embedded as
an executable Lean definition: free-text names become lists of characters,
dictionaries with optional fields become structures with Option fields, the
HTTP transport becomes an explicit list of responses, and the insolvency
lookups performed inside the categorizer become an explicit lookup function
passed as an argument.  The difflib.SequenceMatcher ratio used by
name_similarity is embedded from its documented semantics (longest matching
block, ties broken by the earliest start in the first argument and then in
the second, recursion on both sides; the autojunk heuristic only affects
sequences of at least 200 elements and is not modelled).  Floats are
modelled exactly as rationals; all ratios involved are exact dyadic
computations.  Theorems at the end of the file settle the specification
claims.
-/

namespace Checker

/-! Character and list utilities shared by the embedded functions. -/

/-- Python str.upper on a list of characters (ASCII names). -/
def upperChars (l : List Char) : List Char := l.map Char.toUpper

/-- Whitespace recognized by Python str.split and str.strip (the common cases). -/
def isSpChar (c : Char) : Bool := c == ' ' || c == '\t' || c == '\n' || c == '\r'

/-- Python str.strip: remove leading and trailing whitespace. -/
def stripChars (l : List Char) : List Char :=
  ((l.dropWhile isSpChar).reverse.dropWhile isSpChar).reverse

/-- Python str.split(sep) for a single character separator: keeps empty parts. -/
def splitOnChar (c : Char) : List Char → List (List Char)
  | [] => [[]]
  | x :: xs =>
    match splitOnChar c xs with
    | [] => [[x]]
    | h :: t => if x = c then [] :: h :: t else (x :: h) :: t

/-- Python str.split() with no argument: split on whitespace runs, dropping
empty parts. -/
def pySplitWs : List Char → List (List Char)
  | [] => []
  | c :: rest =>
    let r := pySplitWs rest
    if isSpChar c then r
    else
      match rest with
      | [] => [[c]]
      | d :: _ =>
        if isSpChar d then [c] :: r
        else
          match r with
          | [] => [[c]]
          | t :: ts => (c :: t) :: ts

/-- Fuel-indexed body of removeAll: each step consumes at least one input
character, so fuel equal to the input length always suffices. -/
def removeAllFuel (pat : List Char) : Nat → List Char → List Char
  | _, [] => []
  | 0, s => s
  | fuel + 1, c :: rest =>
    if 0 < pat.length ∧ pat.isPrefixOf (c :: rest) then
      removeAllFuel pat fuel (List.drop (pat.length - 1) rest)
    else c :: removeAllFuel pat fuel rest

/-- Python str.replace(pat, empty string): remove every occurrence of pat,
scanning left to right, non-overlapping.  The source never calls replace with
an empty pattern; for an empty pattern this definition returns the input. -/
def removeAll (pat s : List Char) : List Char :=
  removeAllFuel pat s.length s

/-- Bool test for pat occurring as a contiguous substring of s. -/
def containsSub (pat : List Char) : List Char → Bool
  | [] => pat.isEmpty
  | c :: rest => pat.isPrefixOf (c :: rest) || containsSub pat rest

/-- Portion of the link after the first occurrence of pat (the contents of
Python link.split(pat)[1] up to trimming at the next separator), none when
pat does not occur. -/
def afterSubstring (pat : List Char) : List Char → Option (List Char)
  | [] => if pat = [] then some [] else none
  | c :: rest =>
    if pat.isPrefixOf (c :: rest) then some (List.drop pat.length (c :: rest))
    else afterSubstring pat rest

/-! Name normalizer (src/main.py lines 53-76). -/

/-- Honorific prefixes stripped by the normalizer, in source order. -/
def namePrefixes : List (List Char) :=
  ["MR", "MRS", "MS", "MISS", "DR", "SIR", "LADY", "LORD"].map String.data

/-- The prefix-stripping loop of format_name_proper_order: for each prefix P,
name_upper = name_upper.replace(P + space, empty).replace(P + comma-space,
empty).  Note this is substring replacement, not token removal. -/
def strip_titles (s : List Char) : List Char :=
  namePrefixes.foldl
    (fun acc p => removeAll (p ++ [',', ' ']) (removeAll (p ++ [' ']) acc)) s

/-- Character-level body of format_name_proper_order (src/main.py 53-68):
uppercase, strip prefixes, then if the string contains a comma and splits
into exactly two parts, return stripped-forenames space stripped-surname,
stripped; otherwise return the stripped string. -/
def format_chars (l : List Char) : List Char :=
  let name_upper := strip_titles (upperChars l)
  if name_upper.contains ',' then
    match splitOnChar ',' name_upper with
    | [surname, forenames] =>
      stripChars (stripChars forenames ++ ' ' :: stripChars surname)
    | _ => stripChars name_upper
  else stripChars name_upper

/-- format_name_proper_order (src/main.py 53-68). -/
def format_name_proper_order (name : String) : String :=
  String.mk (format_chars name.data)

/-- Python replace(comma, space) used by normalize_name. -/
def commaToSpace (l : List Char) : List Char :=
  l.map (fun c => if c = ',' then ' ' else c)

/-- Token list of normalize_name: uppercase, commas to spaces, whitespace
split, drop tokens equal to a prefix. -/
def norm_tokens (l : List Char) : List (List Char) :=
  (pySplitWs (commaToSpace (upperChars l))).filter
    (fun t => !namePrefixes.contains t)

/-- normalize_name (src/main.py 71-76): sort the cleaned tokens (Python
sorted, lexicographic by code point) and join with single spaces. -/
def normalize_name (name : String) : String :=
  String.mk (List.intercalate [' ']
    (List.insertionSort (fun x y : List Char => x ≤ y) (norm_tokens name.data)))

/-! Registry client (src/main.py 36-50).  The transport is modelled as the
list of responses the successive HTTP attempts would produce: each attempt
either raises (exc) or yields a status code and a parsed body.  api_call
consumes one response per attempt and retries on 429; the outer Option is
none when the response list is exhausted while retrying, modelling the
unbounded recursion on persistent 429s, and some v when the call returns
value v to the caller.  Sleeps are irrelevant to the returned value and are
not modelled. -/

inductive RegResp (β : Type) where
  | exc : RegResp β
  | ok : Nat → β → RegResp β
deriving DecidableEq

/-- api_call (src/main.py 36-50): 200 yields the body, 404 and 416 yield
None, 429 retries with the next response, anything else and any raised
exception yield None. -/
def api_call {β : Type} : List (RegResp β) → Option (Option β)
  | [] => none
  | .exc :: _ => some none
  | .ok s b :: rest =>
    if s = 200 then some (some b)
    else if s = 404 ∨ s = 416 then some none
    else if s = 429 then api_call rest
    else some none

/-- Whether a response is an HTTP 429 (the only retried status). -/
def is429 {β : Type} : RegResp β → Bool
  | .exc => false
  | .ok s _ => s == 429

/-- Outcome the specification assigns to one non-429 response: the parsed
body exactly for status 200, absent for everything else including raised
exceptions.  Stated from the claim, for comparison with api_call. -/
def respOutcome {β : Type} : RegResp β → Option β
  | .exc => none
  | .ok s b => if s = 200 then some b else none

/-! Match finder (src/main.py 196-200 and 337-347). -/

/-- Officer id extraction: link.split(marker)[1].split(slash)[0] for marker
the officers path segment, none when the marker does not occur (the source
guards with an in-test). -/
def extractOfficerId (link : String) : Option String :=
  match afterSubstring ("/officers/".data) link.data with
  | none => none
  | some r => some (String.mk (r.takeWhile (fun c => c != '/')))

/-- One officer-search hit, with its optional date-of-birth parts and its
self link. -/
structure SearchHit where
  dob_month : Option Nat
  dob_year : Option Nat
  self_link : String
deriving DecidableEq

/-- match_dob (src/main.py 196-200): Python equality of the optional month
and year fields; a missing field on both sides compares equal. -/
def match_dob (officer : SearchHit) (target_month target_year : Option Nat) : Bool :=
  officer.dob_month == target_month && officer.dob_year == target_year

/-- The potential-matches filter loop (src/main.py 337-347): keep each hit
whose DOB matches, whose link contains an officer id, and whose id is not
already verified; pair it with the extracted id, in discovery order. -/
def potential_matches (officer_results : List SearchHit)
    (target_month target_year : Option Nat) (verified_ids : List String) :
    List (SearchHit × String) :=
  officer_results.foldl
    (fun acc o =>
      if match_dob o target_month target_year then
        match extractOfficerId o.self_link with
        | some oid =>
          if verified_ids.contains oid then acc else acc ++ [(o, oid)]
        | none => acc
      else acc)
    []

/-! Appointment categorizer (src/main.py 203-273). -/

/-- One appointment record as consumed by categorize_companies: the fields
read from appt and appt.appointed_to, each optional because the source reads
them with dict.get. -/
structure Appt where
  company_number : Option String
  company_name : Option String
  company_status : Option String
  resigned_on : Option String
deriving DecidableEq

/-- Parsed body of the company insolvency endpoint: an optional cases list
(the source only tests presence and length of the list). -/
structure InsolvencyData where
  cases : Option (List Unit)
deriving DecidableEq

/-- has_insolvency (src/main.py 227-230): true exactly when the lookup
returned a body whose cases key is present with a non-empty list.  The
api_call inside it is modelled by the lookup argument, absent meaning the
call returned None. -/
def has_insolvency (lookup : String → Option InsolvencyData)
    (company_number : String) : Bool :=
  match lookup company_number with
  | none => false
  | some d => d.cases.isSome && decide (0 < (d.cases.getD []).length)

/-- The four output categories. -/
inductive ACat where
  | active
  | dissolved
  | involuntary
  | resigned
deriving DecidableEq

/-- Involuntary-proceeding company statuses (src/main.py 243-244). -/
def involuntary_statuses : List String :=
  ["liquidation", "administration", "receivership", "insolvency-proceedings",
   "converted-closed"]

/-- Python str.lower, character by character (ASCII statuses). -/
def lowerStr (s : String) : String :=
  String.mk (s.data.map Char.toLower)

/-- The classification chain of categorize_companies (src/main.py 262-271):
truthy resigned_on wins, then lowercased status in the involuntary set, then
dissolved, then active, with any other status also falling to active. -/
def classify_appt (a : Appt) : ACat :=
  let co_status := lowerStr (a.company_status.getD "")
  if (a.resigned_on.getD "") ≠ "" then ACat.resigned
  else if involuntary_statuses.contains co_status then ACat.involuntary
  else if co_status = "dissolved" then ACat.dissolved
  else if co_status = "active" then ACat.active
  else ACat.active

/-- Classification as worded by the specification, for comparison with
classify_appt: (a) the appointment has a resignation date (a non-empty date
string), else (b) the company status is case-insensitively one of the
involuntary set, else (c) the status is dissolved, else (d) active,
unknown statuses included. -/
def classify_spec (a : Appt) : ACat :=
  if (a.resigned_on.getD "") ≠ "" then ACat.resigned
  else if involuntary_statuses.any
      (fun t => lowerStr (a.company_status.getD "") == lowerStr t) then
    ACat.involuntary
  else if lowerStr (a.company_status.getD "") = "dissolved" then ACat.dissolved
  else ACat.active

/-- The four ordered result lists of categorize_companies. -/
structure Categories where
  active : List String
  dissolved : List String
  involuntary : List String
  resigned : List String
deriving DecidableEq

/-- Append one display entry to the list selected by the category. -/
def addEntry (c : ACat) (e : String) (cats : Categories) : Categories :=
  match c with
  | ACat.active => { cats with active := cats.active ++ [e] }
  | ACat.dissolved => { cats with dissolved := cats.dissolved ++ [e] }
  | ACat.involuntary => { cats with involuntary := cats.involuntary ++ [e] }
  | ACat.resigned => { cats with resigned := cats.resigned ++ [e] }

/-- Display entry for one company (src/main.py 255-260): company name with
the number in parentheses, plus the insolvency suffix when has_insolvency
holds for the number. -/
def mkEntry (lookup : String → Option InsolvencyData) (a : Appt) (n : String) :
    String :=
  let base := (a.company_name.getD "Unknown") ++ " (" ++ n ++ ")"
  if has_insolvency lookup n then base ++ " [Insolvency history]" else base

/-- Main loop of categorize_companies (src/main.py 246-271) with the seen
set of company numbers and the accumulated categories made explicit. -/
def categorize_aux (lookup : String → Option InsolvencyData)
    (seen : Finset String) (cats : Categories) : List Appt → Categories
  | [] => cats
  | a :: rest =>
    match a.company_number with
    | none => categorize_aux lookup seen cats rest
    | some n =>
      if n = "" ∨ n ∈ seen then categorize_aux lookup seen cats rest
      else
        categorize_aux lookup (insert n seen)
          (addEntry (classify_appt a) (mkEntry lookup a n) cats) rest

/-- categorize_companies (src/main.py 233-273). -/
def categorize_companies (lookup : String → Option InsolvencyData)
    (appointments : List Appt) : Categories :=
  categorize_aux lookup ∅ ⟨[], [], [], []⟩ appointments

/-- Total number of display entries across the four categories. -/
def totalLen (c : Categories) : Nat :=
  c.active.length + c.dissolved.length + c.involuntary.length +
    c.resigned.length

/-- The company number the loop would process for an appointment: present
and non-empty, mirroring the guard in src/main.py line 250. -/
def validNum (a : Appt) : Option String :=
  match a.company_number with
  | none => none
  | some n => if n = "" then none else some n

/-- Keep only the first appointment for each processable company number;
records without a processable number are kept (the loop skips them anyway). -/
def dedup_first_aux (seen : Finset String) : List Appt → List Appt
  | [] => []
  | a :: rest =>
    match validNum a with
    | none => a :: dedup_first_aux seen rest
    | some n =>
      if n ∈ seen then dedup_first_aux seen rest
      else a :: dedup_first_aux (insert n seen) rest

/-- First-occurrence filter on a whole appointment list. -/
def dedup_first (appointments : List Appt) : List Appt :=
  dedup_first_aux ∅ appointments

/-! Identity aggregator (src/main.py 305-313). -/

/-- One raw director or PSC item as built by get_current_directors and
get_current_pscs: name, optional DOB parts, a singleton role list, and an
optional officer id (always absent for PSC items). -/
structure RawItem where
  name : String
  dob_month : Option Nat
  dob_year : Option Nat
  roles : List String
  officer_id : Option String
deriving DecidableEq

/-- Identity key of the aggregation loop (src/main.py 307). -/
def itemKey (person : RawItem) : String × Option Nat × Option Nat :=
  (normalize_name person.name, person.dob_month, person.dob_year)

/-- Python truthiness of an optional officer id: present and non-empty. -/
def truthyId : Option String → Bool
  | none => false
  | some s => s != ""

/-- Merging one incoming item into the existing entry with the same key
(src/main.py 309-311): roles are concatenated and the incoming officer id
is adopted exactly when it is truthy and the existing one is not. -/
def mergeInto (existing incoming : RawItem) : RawItem :=
  { existing with
    roles := existing.roles ++ incoming.roles,
    officer_id :=
      if truthyId incoming.officer_id && !truthyId existing.officer_id then
        incoming.officer_id
      else existing.officer_id }

/-- One step of the aggregation loop over the insertion-ordered dict,
modelled as an association list keyed by itemKey. -/
def merge_step (acc : List ((String × Option Nat × Option Nat) × RawItem))
    (person : RawItem) : List ((String × Option Nat × Option Nat) × RawItem) :=
  let key := itemKey person
  if (acc.map Prod.fst).contains key then
    acc.map (fun e => if e.1 = key then (e.1, mergeInto e.2 person) else e)
  else acc ++ [(key, person)]

/-- The aggregation loop (src/main.py 305-313) over all director items
followed by all PSC items. -/
def merge_people (items : List RawItem) :
    List ((String × Option Nat × Option Nat) × RawItem) :=
  items.foldl merge_step []

/-- Expected merged officer id for the items sharing one key: the id of the
first item with a truthy id, or the first item's id when no id is truthy. -/
def chosenId (l : List RawItem) : Option String :=
  match l.find? (fun it => truthyId it.officer_id) with
  | some it => it.officer_id
  | none => l.head?.bind RawItem.officer_id

/-- The raw items whose identity key equals k, in input order. -/
def gatherKey (items : List RawItem) (k : String × Option Nat × Option Nat) :
    List RawItem :=
  items.filter (fun it => decide (itemKey it = k))

/-- Value stored for key k in the association list. -/
def lookupKey (acc : List ((String × Option Nat × Option Nat) × RawItem))
    (k : String × Option Nat × Option Nat) : Option RawItem :=
  (acc.find? (fun e => decide (e.1 = k))).map Prod.snd

/-- Expected merged entry at key k: the left fold of mergeInto over all the
items with that key, none when there are none. -/
def canonAt (items : List RawItem) (k : String × Option Nat × Option Nat) :
    Option RawItem :=
  match gatherKey items k with
  | [] => none
  | h :: t => some (t.foldl mergeInto h)

/-! Confidence scorer (src/main.py 89-91): difflib.SequenceMatcher ratio.
The region of the two character lists under consideration is delimited by
half-open index ranges; klen is the length of the matching run starting at a
pair of positions, find_longest_match picks the longest run breaking ties by
the earliest first index and then the earliest second index, and
matching_total sums the recursive block decomposition, exactly the
documented behaviour of difflib with no junk. -/

/-- Fuel-indexed run length: the fuel bounds the number of steps, and the
wrapper supplies fuel equal to the distance to the region end, which the
bound i below ahi makes exact. -/
def klenF (a b : List Char) : Nat → Nat → Nat → Nat → Nat → Nat
  | 0, _, _, _, _ => 0
  | fuel + 1, ahi, bhi, i, j =>
    if i < ahi ∧ j < bhi ∧ a[i]? = b[j]? then
      klenF a b fuel ahi bhi (i + 1) (j + 1) + 1
    else 0

/-- Length of the equal run of characters starting at positions i and j,
within the region bounds. -/
def klen (a b : List Char) (ahi bhi : Nat) (i j : Nat) : Nat :=
  klenF a b (ahi - i) ahi bhi i j

/-- All start-position pairs of the region, ordered by first index and then
second index. -/
def fl_candidates (alo ahi blo bhi : Nat) : List (Nat × Nat) :=
  (List.range' alo (ahi - alo)).flatMap
    (fun i => (List.range' blo (bhi - blo)).map (fun j => (i, j)))

/-- Size of the longest matching run anywhere in the region. -/
def best_size (a b : List Char) (alo ahi blo bhi : Nat) : Nat :=
  (fl_candidates alo ahi blo bhi).foldl
    (fun m c => max m (klen a b ahi bhi c.1 c.2)) 0

/-- find_longest_match: the first candidate pair, in order of first index
then second index, whose run reaches the maximal size; the zero-size answer
at the region origin when the region is empty. -/
def find_longest_match (a b : List Char) (alo ahi blo bhi : Nat) :
    Nat × Nat × Nat :=
  match (fl_candidates alo ahi blo bhi).find?
      (fun c => klen a b ahi bhi c.1 c.2 == best_size a b alo ahi blo bhi) with
  | some (i, j) => (i, j, best_size a b alo ahi blo bhi)
  | none => (alo, blo, 0)

/-- Total size of all matching blocks: recursive decomposition around the
longest match, as in difflib get_matching_blocks.  The fuel argument bounds
the recursion depth; the top-level call supplies enough for the recursion to
complete, since each recursive region is strictly smaller. -/
def matching_total (a b : List Char) :
    Nat → Nat → Nat → Nat → Nat → Nat
  | 0, _, _, _, _ => 0
  | fuel + 1, alo, ahi, blo, bhi =>
    let m := find_longest_match a b alo ahi blo bhi
    if m.2.2 = 0 then 0
    else
      matching_total a b fuel alo m.1 blo m.2.1 + m.2.2 +
        matching_total a b fuel (m.1 + m.2.2) ahi (m.2.1 + m.2.2) bhi

/-- SequenceMatcher ratio: twice the total matched size over the total
length, one when both sequences are empty; exact rational arithmetic. -/
def sequence_ratio (a b : List Char) : ℚ :=
  if a.length + b.length = 0 then 1
  else
    2 * (matching_total a b (a.length + b.length + 1) 0 a.length 0 b.length : ℚ) /
      ((a.length : ℚ) + (b.length : ℚ))

/-- name_similarity (src/main.py 89-91): the ratio of the two uppercased
names. -/
def name_similarity (name1 name2 : String) : ℚ :=
  sequence_ratio (upperChars name1.data) (upperChars name2.data)

/-! Side conditions and specification-side forms used by the theorems about
the name normalizer. -/

/-- A character list in which no honorific prefix occurs immediately
followed by a space or by a comma and space, so the substring-replacement
stripping loop cannot touch it. -/
def cleanTitles (u : List Char) : Prop :=
  ∀ p ∈ namePrefixes,
    containsSub (p ++ [' ']) u = false ∧ containsSub (p ++ [',', ' ']) u = false

/-- Comma handling as worded by the specification: when the string contains
exactly one comma, reorder surname-comma-forenames to forenames-space-surname
with the parts trimmed; otherwise return the string trimmed. -/
def comma_reorder_spec (u : List Char) : List Char :=
  if u.count ',' = 1 then
    stripChars
      (stripChars ((u.dropWhile (fun c => c != ',')).tail) ++
        ' ' :: stripChars (u.takeWhile (fun c => c != ',')))
  else stripChars u

/-- A character list with no leading and no trailing whitespace. -/
def trimmedStr (l : List Char) : Prop :=
  l.dropWhile isSpChar = l ∧ l.reverse.dropWhile isSpChar = l.reverse

instance cleanTitlesDecidable (u : List Char) : Decidable (cleanTitles u) := by
  unfold cleanTitles
  infer_instance

instance trimmedStrDecidable (l : List Char) : Decidable (trimmedStr l) := by
  unfold trimmedStr
  infer_instance

instance leListCharAntisymm :
    IsAntisymm (List Char) (fun x y : List Char => x ≤ y) :=
  ⟨fun _ _ h h2 => le_antisymm h h2⟩

instance leListCharTotal : IsTotal (List Char) (fun x y : List Char => x ≤ y) :=
  ⟨le_total⟩

instance leListCharTrans : IsTrans (List Char) (fun x y : List Char => x ≤ y) :=
  ⟨fun _ _ _ h h2 => le_trans h h2⟩

/-! General helper lemmas. -/

theorem length_dropWhile_le (p : Char → Bool) (l : List Char) :
    (l.dropWhile p).length ≤ l.length := by
  induction l with
  | nil => simp [List.dropWhile]
  | cons c rest ih =>
    by_cases h : p c
    · simp [List.dropWhile, h]
      omega
    · simp [List.dropWhile, h]

/-! Claim theorems. -/

/-- C9: api_call returns the parsed body exactly for HTTP 200 and absent for
404, 416, any other non-200 non-429 status, and any raised transport or
timeout exception; 429 responses are transparently retried.  The transport
is the explicit list of per-attempt responses, and the function totally
computes a value for every response list, modelling that no exception
escapes to the caller. -/
theorem api_call_outcome {β : Type} (pre : List (RegResp β)) (r : RegResp β)
    (rest : List (RegResp β)) (h1 : ∀ x ∈ pre, is429 x = true)
    (h2 : is429 r = false) :
    api_call (pre ++ r :: rest) = some (respOutcome r) := by
  induction pre with
  | nil =>
    cases r with
    | exc => rfl
    | ok s b =>
      have hs : ¬s = 429 := by simpa [is429] using h2
      by_cases h200 : s = 200
      · subst h200; simp [api_call, respOutcome]
      · by_cases h4 : s = 404 ∨ s = 416
        · simp [api_call, respOutcome, h200, h4]
        · simp [api_call, respOutcome, h200, h4, hs]
  | cons x xs ih =>
    cases x with
    | exc => exact absurd (h1 RegResp.exc (by simp)) (by simp [is429])
    | ok s b =>
      have hs : s = 429 := by
        have hx := h1 (RegResp.ok s b) (by simp)
        simpa [is429] using hx
      subst hs
      have hrec := ih (fun y hy => h1 y (by simp [hy]))
      simpa [api_call] using hrec

theorem api_call_outcome_witness :
    (∀ x ∈ ([RegResp.ok 429 0] : List (RegResp Nat)), is429 x = true) ∧
      is429 (RegResp.ok 200 7) = false ∧
      api_call ([RegResp.ok 429 0] ++ RegResp.ok 200 7 :: []) =
        some (respOutcome (RegResp.ok 200 7)) :=
  ⟨by decide, by decide,
    api_call_outcome [RegResp.ok 429 0] (RegResp.ok 200 7) [] (by decide)
      (by decide)⟩

/-- C2 counterexample: a Person with unknown DOB and a search hit with no
date_of_birth fields: Python compares None equal to None, so the hit passes
match_dob and survives the potential-matches filter, contradicting the claim
that no candidate can pass when the DOB is unknown. -/
theorem match_dob_unknown_counterexample :
    match_dob ⟨none, none, "/officers/xyz789/appointments"⟩ none none = true ∧
      potential_matches [⟨none, none, "/officers/xyz789/appointments"⟩] none
          none [] =
        [(⟨none, none, "/officers/xyz789/appointments"⟩, "xyz789")] := by
  exact ⟨rfl, by decide⟩

theorem potential_matches_mem_aux (tm ty : Option Nat) (verified : List String) :
    ∀ (results : List SearchHit) (acc : List (SearchHit × String))
      (o : SearchHit) (oid : String),
      (o, oid) ∈ results.foldl
        (fun acc o =>
          if match_dob o tm ty then
            match extractOfficerId o.self_link with
            | some oid =>
              if verified.contains oid then acc else acc ++ [(o, oid)]
            | none => acc
          else acc) acc →
      (o, oid) ∈ acc ∨
        (o ∈ results ∧ match_dob o tm ty = true ∧
          extractOfficerId o.self_link = some oid ∧
          verified.contains oid = false) := by
  intro results
  induction results with
  | nil => intro acc o oid h; exact Or.inl h
  | cons r rs ih =>
    intro acc o oid h
    simp only [List.foldl_cons] at h
    rcases ih _ o oid h with hacc | hgood
    · by_cases hm : match_dob r tm ty
      · simp only [hm, if_true] at hacc
        cases hx : extractOfficerId r.self_link with
        | none => simp only [hx] at hacc; exact Or.inl hacc
        | some oid1 =>
          simp only [hx] at hacc
          by_cases hv : verified.contains oid1
          · simp only [hv, if_true] at hacc; exact Or.inl hacc
          · simp only [hv, if_false] at hacc
            rcases List.mem_append.1 hacc with h1 | h2
            · exact Or.inl h1
            · have hpair : o = r ∧ oid = oid1 := by
                have := List.mem_singleton.1 h2
                exact ⟨congrArg Prod.fst this, congrArg Prod.snd this⟩
              refine Or.inr ⟨?_, ?_, ?_, ?_⟩
              · simp [hpair.1]
              · rw [hpair.1]; exact hm
              · rw [hpair.1, hpair.2]; exact hx
              · rw [hpair.2]; simpa using hv
      · simp only [hm, if_false] at hacc
        exact Or.inl hacc
    · exact Or.inr ⟨by simp [hgood.1], hgood.2.1, hgood.2.2.1, hgood.2.2.2⟩

/-- C2 amended: a search hit passes match_dob exactly when its optional DOB
month and year equal the Person's optional dobMonth and dobYear, absent
values comparing equal to absent values; every element of the
potential-matches list passed that test, carries the officer id extracted
from its self link, and that id was not already verified.  In particular,
for a Person with unknown DOB the candidates that pass are exactly those
whose DOB month and year are also absent, not none at all. -/
theorem match_dob_optional_equality :
    (∀ (o : SearchHit) (tm ty : Option Nat),
        match_dob o tm ty = true ↔ o.dob_month = tm ∧ o.dob_year = ty) ∧
      (∀ (results : List SearchHit) (tm ty : Option Nat)
          (verified : List String) (o : SearchHit) (oid : String),
          (o, oid) ∈ potential_matches results tm ty verified →
            o ∈ results ∧ match_dob o tm ty = true ∧
              extractOfficerId o.self_link = some oid ∧
              verified.contains oid = false) := by
  constructor
  · intro o tm ty
    simp [match_dob, Bool.and_eq_true, beq_iff_eq]
  · intro results tm ty verified o oid h
    have := potential_matches_mem_aux tm ty verified results [] o oid h
    rcases this with habs | hgood
    · simp at habs
    · exact hgood

theorem match_dob_optional_equality_witness :
    ((⟨none, none, "/officers/abc/x"⟩ : SearchHit), "abc") ∈
        potential_matches [⟨none, none, "/officers/abc/x"⟩] none none [] ∧
      ((⟨none, none, "/officers/abc/x"⟩ : SearchHit) ∈
          ([⟨none, none, "/officers/abc/x"⟩] : List SearchHit) ∧
        match_dob ⟨none, none, "/officers/abc/x"⟩ none none = true ∧
        extractOfficerId
            (SearchHit.self_link ⟨none, none, "/officers/abc/x"⟩) =
          some "abc" ∧
        ([] : List String).contains "abc" = false) :=
  ⟨by decide,
    match_dob_optional_equality.2 [⟨none, none, "/officers/abc/x"⟩] none none
      [] ⟨none, none, "/officers/abc/x"⟩ "abc" (by decide)⟩

theorem contains_lower_eq_any_lower (s : String) :
    involuntary_statuses.contains s =
      involuntary_statuses.any (fun t => s == lowerStr t) := by
  have h1 : lowerStr "liquidation" = "liquidation" := by decide
  have h2 : lowerStr "administration" = "administration" := by decide
  have h3 : lowerStr "receivership" = "receivership" := by decide
  have h4 : lowerStr "insolvency-proceedings" = "insolvency-proceedings" := by
    decide
  have h5 : lowerStr "converted-closed" = "converted-closed" := by decide
  simp only [involuntary_statuses, List.contains_cons, List.contains_nil,
    List.any_cons, List.any_nil, h1, h2, h3, h4, h5, Bool.or_false]

/-- C3: the classification chain agrees everywhere with the priority order
worded by the specification: a non-empty resignation date wins, then a
case-insensitive involuntary status, then dissolved, then active with every
unknown status defaulting to active; and concretely an appointment with a
resignation date at a company in liquidation is classified resigned. -/
theorem classify_priority_order :
    (∀ a : Appt, classify_appt a = classify_spec a) ∧
      classify_appt ⟨some "1", some "X", some "liquidation", some "2020-01-01"⟩ =
        ACat.resigned := by
  constructor
  · intro a
    have h := contains_lower_eq_any_lower (lowerStr (a.company_status.getD ""))
    unfold classify_appt classify_spec
    simp only [h, ite_self]
  · rfl

theorem addEntry_totalLen (c : ACat) (e : String) (cats : Categories) :
    totalLen (addEntry c e cats) = totalLen cats + 1 := by
  cases c <;> simp [addEntry, totalLen] <;> omega

theorem card_insert_sdiff (n : String) (T seen : Finset String)
    (hs : n ∉ seen) :
    (insert n T \ seen).card = (T \ insert n seen).card + 1 := by
  have h1 : insert n T \ seen = insert n (T \ seen) := by
    ext x
    simp only [Finset.mem_sdiff, Finset.mem_insert]
    constructor
    · rintro ⟨h | h, hxs⟩
      · exact Or.inl h
      · exact Or.inr ⟨h, hxs⟩
    · rintro (rfl | ⟨h, hxs⟩)
      · exact ⟨Or.inl rfl, hs⟩
      · exact ⟨Or.inr h, hxs⟩
  have h3 : T \ insert n seen = (T \ seen).erase n := Finset.sdiff_insert T seen n
  by_cases hT : n ∈ T
  · have h4 : n ∈ T \ seen := Finset.mem_sdiff.2 ⟨hT, hs⟩
    have h2 : insert n (T \ seen) = T \ seen := Finset.insert_eq_self.2 h4
    have h5 : 0 < (T \ seen).card := Finset.card_pos.2 ⟨n, h4⟩
    rw [h1, h2, h3, Finset.card_erase_of_mem h4]
    omega
  · have h4 : n ∉ T \ seen := fun hmem => hT (Finset.mem_sdiff.1 hmem).1
    rw [h1, Finset.card_insert_of_not_mem h4, h3,
      Finset.erase_eq_of_not_mem h4]

theorem categorize_aux_totalLen (lookup : String → Option InsolvencyData)
    (appts : List Appt) :
    ∀ (seen : Finset String) (cats : Categories),
      totalLen (categorize_aux lookup seen cats appts) =
        totalLen cats + ((appts.filterMap validNum).toFinset \ seen).card := by
  induction appts with
  | nil => intro seen cats; simp [categorize_aux]
  | cons a rest ih =>
    intro seen cats
    cases hc : a.company_number with
    | none =>
      have hv : validNum a = none := by simp [validNum, hc]
      simp only [categorize_aux, hc, List.filterMap_cons, hv]
      exact ih seen cats
    | some n =>
      by_cases hn : n = ""
      · have hv : validNum a = none := by simp [validNum, hc, hn]
        have hskip : categorize_aux lookup seen cats (a :: rest) =
            categorize_aux lookup seen cats rest := by
          simp [categorize_aux, hc, hn]
        rw [hskip]
        simp only [List.filterMap_cons, hv]
        exact ih seen cats
      · have hv : validNum a = some n := by simp [validNum, hc, hn]
        by_cases hs : n ∈ seen
        · have hskip : categorize_aux lookup seen cats (a :: rest) =
              categorize_aux lookup seen cats rest := by
            simp [categorize_aux, hc, hs]
          rw [hskip, ih seen cats]
          simp only [List.filterMap_cons, hv, List.toFinset_cons]
          rw [Finset.insert_sdiff_of_mem _ hs]
        · have hstep : categorize_aux lookup seen cats (a :: rest) =
              categorize_aux lookup (insert n seen)
                (addEntry (classify_appt a) (mkEntry lookup a n) cats) rest := by
            simp [categorize_aux, hc, hn, hs]
          rw [hstep, ih (insert n seen) _, addEntry_totalLen]
          simp only [List.filterMap_cons, hv, List.toFinset_cons]
          rw [card_insert_sdiff n _ seen hs]
          omega

theorem categorize_aux_dedup (lookup : String → Option InsolvencyData)
    (appts : List Appt) :
    ∀ (seen : Finset String) (cats : Categories),
      categorize_aux lookup seen cats (dedup_first_aux seen appts) =
        categorize_aux lookup seen cats appts := by
  induction appts with
  | nil => intro seen cats; rfl
  | cons a rest ih =>
    intro seen cats
    cases hc : a.company_number with
    | none =>
      have hv : validNum a = none := by simp [validNum, hc]
      simp only [dedup_first_aux, hv]
      have h1 : categorize_aux lookup seen cats
          (a :: dedup_first_aux seen rest) =
          categorize_aux lookup seen cats (dedup_first_aux seen rest) := by
        simp [categorize_aux, hc]
      have h2 : categorize_aux lookup seen cats (a :: rest) =
          categorize_aux lookup seen cats rest := by
        simp [categorize_aux, hc]
      rw [h1, h2, ih seen cats]
    | some n =>
      by_cases hn : n = ""
      · have hv : validNum a = none := by simp [validNum, hc, hn]
        simp only [dedup_first_aux, hv]
        have h1 : categorize_aux lookup seen cats
            (a :: dedup_first_aux seen rest) =
            categorize_aux lookup seen cats (dedup_first_aux seen rest) := by
          simp [categorize_aux, hc, hn]
        have h2 : categorize_aux lookup seen cats (a :: rest) =
            categorize_aux lookup seen cats rest := by
          simp [categorize_aux, hc, hn]
        rw [h1, h2, ih seen cats]
      · have hv : validNum a = some n := by simp [validNum, hc, hn]
        by_cases hs : n ∈ seen
        · simp only [dedup_first_aux, hv, hs, if_true]
          have h2 : categorize_aux lookup seen cats (a :: rest) =
              categorize_aux lookup seen cats rest := by
            simp [categorize_aux, hc, hs]
          rw [h2, ih seen cats]
        · simp only [dedup_first_aux, hv, hs, if_false]
          have h1 : ∀ l, categorize_aux lookup seen cats (a :: l) =
              categorize_aux lookup (insert n seen)
                (addEntry (classify_appt a) (mkEntry lookup a n) cats) l := by
            intro l
            simp [categorize_aux, hc, hn, hs]
          rw [h1, h1, ih (insert n seen) _]

/-- C1: within one categorization pass each processable company number
contributes exactly one display entry to exactly one of the four category
lists: the total number of entries equals the number of distinct present,
non-empty company numbers in the appointment list, and the whole result is
unchanged when every appointment after the first one for each company number
is removed, so the first-seen appointment alone determines the entry and
its category. -/
theorem categorize_company_once (lookup : String → Option InsolvencyData)
    (appointments : List Appt) :
    totalLen (categorize_companies lookup appointments) =
        ((appointments.filterMap validNum).toFinset).card ∧
      categorize_companies lookup appointments =
        categorize_companies lookup (dedup_first appointments) := by
  constructor
  · have h := categorize_aux_totalLen lookup appointments ∅ ⟨[], [], [], []⟩
    simpa [categorize_companies, totalLen] using h
  · exact (categorize_aux_dedup lookup appointments ∅ ⟨[], [], [], []⟩).symm

/-- C10: has_insolvency holds exactly when the insolvency lookup produced a
body whose cases list is present and non-empty; an absent lookup result
(not found or transport failure) and a body without a non-empty cases list
both yield false, and the display entry of a company accordingly carries
the insolvency-history suffix exactly when has_insolvency holds for its
number, being silently omitted otherwise. -/
theorem has_insolvency_nonempty_cases :
    (∀ (lookup : String → Option InsolvencyData) (n : String),
        has_insolvency lookup n = true ↔
          ∃ d cs, lookup n = some d ∧ d.cases = some cs ∧ cs ≠ []) ∧
      (∀ (lookup : String → Option InsolvencyData) (a : Appt) (n : String),
          a.company_number = some n → n ≠ "" →
          categorize_companies lookup [a] =
            addEntry (classify_appt a)
              ((a.company_name.getD "Unknown") ++ " (" ++ n ++ ")" ++
                (if has_insolvency lookup n then " [Insolvency history]"
                 else ""))
              ⟨[], [], [], []⟩) := by
  constructor
  · intro lookup n
    cases hl : lookup n with
    | none => simp [has_insolvency, hl]
    | some d =>
      cases hcs : d.cases with
      | none => simp [has_insolvency, hl, hcs]
      | some cs =>
        simp [has_insolvency, hl, hcs, List.length_pos]
  · intro lookup a n hc hn
    have hstep : categorize_companies lookup [a] =
        addEntry (classify_appt a) (mkEntry lookup a n) ⟨[], [], [], []⟩ := by
      simp [categorize_companies, categorize_aux, hc, hn]
    rw [hstep]
    have hment : mkEntry lookup a n =
        (a.company_name.getD "Unknown") ++ " (" ++ n ++ ")" ++
          (if has_insolvency lookup n then " [Insolvency history]" else "") := by
      unfold mkEntry
      by_cases h : has_insolvency lookup n
      · simp [h]
      · simp [h]
    rw [hment]

theorem has_insolvency_nonempty_cases_witness :
    ((⟨some "222", some "OldCo", some "dissolved", none⟩ : Appt).company_number =
        some "222") ∧ ("222" : String) ≠ "" ∧
      categorize_companies (fun _ => some ⟨some [()]⟩)
          [⟨some "222", some "OldCo", some "dissolved", none⟩] =
        addEntry
          (classify_appt ⟨some "222", some "OldCo", some "dissolved", none⟩)
          (((⟨some "222", some "OldCo", some "dissolved", none⟩ : Appt).company_name.getD
              "Unknown") ++ " (" ++ "222" ++ ")" ++
            (if has_insolvency (fun _ => some ⟨some [()]⟩) "222" then
              " [Insolvency history]"
             else ""))
          ⟨[], [], [], []⟩ :=
  ⟨rfl, by decide,
    has_insolvency_nonempty_cases.2 (fun _ => some ⟨some [()]⟩)
      ⟨some "222", some "OldCo", some "dissolved", none⟩ "222" rfl (by decide)⟩

theorem map_fst_update
    (M : List ((String × Option Nat × Option Nat) × RawItem))
    (kx : String × Option Nat × Option Nat) (x : RawItem) :
    (M.map (fun e => if e.1 = kx then (e.1, mergeInto e.2 x) else e)).map
        Prod.fst = M.map Prod.fst := by
  induction M with
  | nil => rfl
  | cons e M' ih =>
    by_cases h : e.1 = kx <;> simp [h, ih]

theorem lookupKey_update
    (M : List ((String × Option Nat × Option Nat) × RawItem))
    (kx k : String × Option Nat × Option Nat) (x : RawItem) :
    lookupKey (M.map (fun e => if e.1 = kx then (e.1, mergeInto e.2 x) else e))
        k =
      if k = kx then (lookupKey M k).map (fun v => mergeInto v x)
      else lookupKey M k := by
  induction M with
  | nil => by_cases h : k = kx <;> simp [lookupKey, h]
  | cons e M' ih =>
    have ih' := ih
    unfold lookupKey at ih' ⊢
    simp only [List.map_cons]
    by_cases hk : e.1 = k
    · have hd : decide (e.1 = k) = true := decide_eq_true hk
      by_cases hkk : k = kx
      · have he : e.1 = kx := hk.trans hkk
        simp only [if_pos he, List.find?_cons, hd, if_pos hkk]
        simp
      · have he : ¬e.1 = kx := fun h => hkk (hk.symm.trans h)
        simp only [if_neg he, List.find?_cons, hd, if_neg hkk]
    · have hd : decide (e.1 = k) = false := decide_eq_false hk
      by_cases he : e.1 = kx
      · simp only [if_pos he, List.find?_cons, hd]
        exact ih'
      · simp only [if_neg he, List.find?_cons, hd]
        exact ih'

theorem lookupKey_isSome_iff
    (M : List ((String × Option Nat × Option Nat) × RawItem))
    (k : String × Option Nat × Option Nat) :
    (lookupKey M k).isSome = true ↔ k ∈ M.map Prod.fst := by
  induction M with
  | nil => simp [lookupKey]
  | cons e M' ih =>
    by_cases h : e.1 = k
    · have hd : decide (e.1 = k) = true := decide_eq_true h
      unfold lookupKey
      simp only [List.find?_cons, hd, List.map_cons]
      simp [h]
    · have hd : decide (e.1 = k) = false := decide_eq_false h
      have ih' := ih
      unfold lookupKey at ih' ⊢
      simp only [List.find?_cons, hd, List.map_cons]
      have hne : ¬k = e.1 := fun hh => h hh.symm
      simp [List.mem_cons, hne, ih']

theorem merge_people_append (items : List RawItem) (x : RawItem) :
    merge_people (items ++ [x]) = merge_step (merge_people items) x := by
  simp [merge_people, List.foldl_append]

theorem gatherKey_append (items : List RawItem) (x : RawItem)
    (k : String × Option Nat × Option Nat) :
    gatherKey (items ++ [x]) k =
      gatherKey items k ++ (if itemKey x = k then [x] else []) := by
  by_cases h : itemKey x = k <;>
    simp [gatherKey, List.filter_append, List.filter, h]

theorem merge_people_spec (items : List RawItem) :
    ((merge_people items).map Prod.fst).Nodup ∧
      ∀ k, lookupKey (merge_people items) k = canonAt items k := by
  induction items using List.reverseRecOn with
  | nil =>
    refine ⟨by simp [merge_people], ?_⟩
    intro k
    simp [merge_people, lookupKey, canonAt, gatherKey]
  | append_singleton items x ih =>
    obtain ⟨ihn, ihl⟩ := ih
    rw [merge_people_append]
    by_cases hc : ((merge_people items).map Prod.fst).contains (itemKey x) = true
    · have hstep : merge_step (merge_people items) x =
          (merge_people items).map
            (fun e => if e.1 = itemKey x then (e.1, mergeInto e.2 x) else e) := by
        simp only [merge_step]
        rw [if_pos hc]
      rw [hstep]
      have hmemk : itemKey x ∈ (merge_people items).map Prod.fst :=
        List.elem_iff.1 hc
      have hsome : (lookupKey (merge_people items) (itemKey x)).isSome = true :=
        (lookupKey_isSome_iff _ _).2 hmemk
      refine ⟨by rw [map_fst_update]; exact ihn, ?_⟩
      intro k
      rw [lookupKey_update]
      by_cases hk : k = itemKey x
      · subst hk
        obtain ⟨v, hv⟩ := Option.isSome_iff_exists.1 hsome
        rw [if_pos rfl, hv]
        have hcv : canonAt items (itemKey x) = some v := by
          rw [← ihl (itemKey x)]; exact hv
        unfold canonAt at hcv
        cases hg : gatherKey items (itemKey x) with
        | nil => rw [hg] at hcv; exact absurd hcv (by simp)
        | cons hd t =>
          rw [hg] at hcv
          simp only [Option.some.injEq] at hcv
          have hgr : gatherKey (items ++ [x]) (itemKey x) = hd :: (t ++ [x]) := by
            rw [gatherKey_append, hg]
            simp
          unfold canonAt
          rw [hgr]
          show some (mergeInto v x) = some ((t ++ [x]).foldl mergeInto hd)
          rw [List.foldl_append, hcv]
          rfl
      · rw [if_neg hk, ihl k]
        unfold canonAt
        have hne : ¬itemKey x = k := fun h => hk h.symm
        rw [gatherKey_append, if_neg hne, List.append_nil]
    · have hstep : merge_step (merge_people items) x =
          merge_people items ++ [(itemKey x, x)] := by
        simp only [merge_step]
        rw [if_neg hc]
      rw [hstep]
      have hnone : lookupKey (merge_people items) (itemKey x) = none := by
        cases ho : lookupKey (merge_people items) (itemKey x) with
        | none => rfl
        | some v =>
          have hmemk : itemKey x ∈ (merge_people items).map Prod.fst :=
            (lookupKey_isSome_iff _ _).1 (by rw [ho]; rfl)
          exact absurd (List.elem_iff.2 hmemk) hc
      constructor
      · rw [List.map_append, List.nodup_append]
        refine ⟨ihn, by simp, ?_⟩
        intro a ha hmem
        simp only [List.map_cons, List.map_nil, List.mem_singleton] at hmem
        subst hmem
        have hs := (lookupKey_isSome_iff _ _).2 ha
        rw [hnone] at hs
        simp at hs
      · intro k
        unfold lookupKey
        rw [List.find?_append]
        by_cases hk : k = itemKey x
        · subst hk
          have hfn : (merge_people items).find?
              (fun e => decide (e.1 = itemKey x)) = none := by
            have hn := hnone
            unfold lookupKey at hn
            cases hf : (merge_people items).find?
                (fun e => decide (e.1 = itemKey x)) with
            | none => rfl
            | some e => rw [hf] at hn; exact absurd hn (by simp)
          rw [hfn]
          have hcn : canonAt items (itemKey x) = none := by
            rw [← ihl (itemKey x)]; exact hnone
          have hgr : gatherKey (items ++ [x]) (itemKey x) = [x] := by
            rw [gatherKey_append]
            cases hg : gatherKey items (itemKey x) with
            | nil => simp
            | cons hd t =>
              unfold canonAt at hcn
              rw [hg] at hcn
              exact absurd hcn (by simp)
          have hd2 : decide (((itemKey x, x) : _ × RawItem).1 = itemKey x) =
              true := decide_eq_true rfl
          simp only [List.find?_cons, hd2]
          unfold canonAt
          rw [hgr]
          rfl
        · have hne : ¬itemKey x = k := fun h => hk h.symm
          have hd : decide ((itemKey x, x).1 = k) = false := decide_eq_false hne
          simp only [List.find?_cons, hd, List.find?_nil]
          have hor : ((merge_people items).find? (fun e => decide (e.1 = k))).or
              none = (merge_people items).find? (fun e => decide (e.1 = k)) := by
            cases (merge_people items).find? (fun e => decide (e.1 = k)) <;> rfl
          rw [hor]
          have hlk := ihl k
          unfold lookupKey at hlk
          rw [hlk]
          unfold canonAt
          rw [gatherKey_append, if_neg hne, List.append_nil]

theorem lookup_of_mem
    (M : List ((String × Option Nat × Option Nat) × RawItem))
    (k : String × Option Nat × Option Nat) (p : RawItem)
    (hnd : (M.map Prod.fst).Nodup) (h : (k, p) ∈ M) :
    lookupKey M k = some p := by
  induction M with
  | nil => simp at h
  | cons e M' ih =>
    simp only [List.map_cons, List.nodup_cons] at hnd
    rcases List.mem_cons.1 h with heq | hmem
    · subst heq
      unfold lookupKey
      have hd : decide (((k, p) : _ × RawItem).1 = k) = true := decide_eq_true rfl
      simp only [List.find?_cons, hd]
      rfl
    · have hk : k ∈ M'.map Prod.fst :=
        List.mem_map.2 ⟨(k, p), hmem, rfl⟩
      have hne : ¬e.1 = k := fun hh => hnd.1 (hh ▸ hk)
      have hd : decide (e.1 = k) = false := decide_eq_false hne
      unfold lookupKey
      simp only [List.find?_cons, hd]
      exact ih hnd.2 hmem

theorem filter_key_of_nodup
    (M : List ((String × Option Nat × Option Nat) × RawItem))
    (k : String × Option Nat × Option Nat) (p : RawItem)
    (hnd : (M.map Prod.fst).Nodup) (h : (k, p) ∈ M) :
    M.filter (fun e => decide (e.1 = k)) = [(k, p)] := by
  induction M with
  | nil => simp at h
  | cons e M' ih =>
    simp only [List.map_cons, List.nodup_cons] at hnd
    rcases List.mem_cons.1 h with heq | hmem
    · subst heq
      have hrest : M'.filter (fun e => decide (e.1 = k)) = [] := by
        rw [List.filter_eq_nil_iff]
        intro e' he'
        simp only [decide_eq_true_eq]
        intro hk
        exact hnd.1 (hk ▸ List.mem_map.2 ⟨e', he', rfl⟩)
      simp [List.filter, hrest]
    · have hk : k ∈ M'.map Prod.fst :=
        List.mem_map.2 ⟨(k, p), hmem, rfl⟩
      have hne : ¬e.1 = k := fun hh => hnd.1 (hh ▸ hk)
      simp only [List.filter, decide_eq_true_eq, hne]
      exact ih hnd.2 hmem

theorem foldl_mergeInto_roles (t : List RawItem) :
    ∀ h : RawItem, (t.foldl mergeInto h).roles = h.roles ++ t.flatMap RawItem.roles := by
  induction t with
  | nil => intro h; simp
  | cons u t' ih =>
    intro h
    simp only [List.foldl_cons, List.flatMap_cons]
    rw [ih (mergeInto h u)]
    simp [mergeInto]

theorem foldl_mergeInto_id (t : List RawItem) :
    ∀ h : RawItem, (t.foldl mergeInto h).officer_id = chosenId (h :: t) := by
  induction t with
  | nil =>
    intro h
    by_cases ht : truthyId h.officer_id = true
    · simp only [List.foldl_nil, chosenId, List.find?_cons, ht]
    · have htf : truthyId h.officer_id = false := by simpa using ht
      simp only [List.foldl_nil, chosenId, List.find?_cons, htf, List.find?_nil]
      rfl
  | cons u t' ih =>
    intro h
    simp only [List.foldl_cons]
    rw [ih (mergeInto h u)]
    by_cases ht : truthyId h.officer_id = true
    · have hm : (mergeInto h u).officer_id = h.officer_id := by
        simp [mergeInto, ht]
      have hmt : truthyId (mergeInto h u).officer_id = true := by
        rw [hm]; exact ht
      unfold chosenId
      simp only [List.find?_cons, hmt, ht]
      exact hm
    · have htf : truthyId h.officer_id = false := by simpa using ht
      by_cases hu : truthyId u.officer_id = true
      · have hm : (mergeInto h u).officer_id = u.officer_id := by
          simp [mergeInto, hu, htf]
        have hmt : truthyId (mergeInto h u).officer_id = true := by
          rw [hm]; exact hu
        unfold chosenId
        simp only [List.find?_cons, hmt, htf, hu]
        exact hm
      · have huf : truthyId u.officer_id = false := by simpa using hu
        have hm : (mergeInto h u).officer_id = h.officer_id := by
          simp [mergeInto, huf]
        have hmt : truthyId (mergeInto h u).officer_id = false := by
          rw [hm]; exact htf
        unfold chosenId
        simp only [List.find?_cons, hmt, htf, huf]
        cases t'.find? (fun it => truthyId it.officer_id) with
        | none => simp [hm]
        | some it => rfl

/-- C4: in the aggregation loop over all director items followed by all PSC
items, the items sharing one identity key (normalized name, DOB month, DOB
year) collapse to exactly one roster entry: the association list holds
exactly one entry for that key, its roles are the concatenation (as a set,
the union) of the roles of all items with that key, and its officer id is
the id of the first item with a non-empty id, falling back to the first
item's id when none is non-empty, so an incoming id is adopted only while
the existing one is absent. -/
theorem merge_people_unions (items : List RawItem)
    (k : String × Option Nat × Option Nat) (p : RawItem)
    (h : (k, p) ∈ merge_people items) :
    ((merge_people items).filter (fun e => decide (e.1 = k))).length = 1 ∧
      p.roles = (gatherKey items k).flatMap RawItem.roles ∧
      p.officer_id = chosenId (gatherKey items k) := by
  obtain ⟨hnd, hspec⟩ := merge_people_spec items
  have hl : lookupKey (merge_people items) k = some p :=
    lookup_of_mem _ _ _ hnd h
  have hcv : canonAt items k = some p := by rw [← hspec k]; exact hl
  refine ⟨by rw [filter_key_of_nodup _ _ _ hnd h]; rfl, ?_⟩
  unfold canonAt at hcv
  cases hg : gatherKey items k with
  | nil => rw [hg] at hcv; simp at hcv
  | cons hd t =>
    rw [hg] at hcv
    simp only [Option.some.injEq] at hcv
    subst hcv
    constructor
    · rw [foldl_mergeInto_roles]
      simp [List.flatMap_cons]
    · rw [foldl_mergeInto_id]

theorem merge_people_unions_witness :
    ((("JOHN SMITH", some 3, some 1975),
        (⟨"SMITH, John", some 3, some 1975, ["Director", "PSC"],
          some "abc123"⟩ : RawItem)) ∈
        merge_people
          [⟨"SMITH, John", some 3, some 1975, ["Director"], some "abc123"⟩,
           ⟨"John SMITH", some 3, some 1975, ["PSC"], none⟩]) ∧
      (((merge_people
            [⟨"SMITH, John", some 3, some 1975, ["Director"], some "abc123"⟩,
             ⟨"John SMITH", some 3, some 1975, ["PSC"], none⟩]).filter
          (fun e => decide (e.1 = ("JOHN SMITH", some 3, some 1975)))).length =
          1 ∧
        RawItem.roles
            ⟨"SMITH, John", some 3, some 1975, ["Director", "PSC"],
              some "abc123"⟩ =
          (gatherKey
              [⟨"SMITH, John", some 3, some 1975, ["Director"], some "abc123"⟩,
               ⟨"John SMITH", some 3, some 1975, ["PSC"], none⟩]
              ("JOHN SMITH", some 3, some 1975)).flatMap RawItem.roles ∧
        RawItem.officer_id
            ⟨"SMITH, John", some 3, some 1975, ["Director", "PSC"],
              some "abc123"⟩ =
          chosenId
            (gatherKey
              [⟨"SMITH, John", some 3, some 1975, ["Director"], some "abc123"⟩,
               ⟨"John SMITH", some 3, some 1975, ["PSC"], none⟩]
              ("JOHN SMITH", some 3, some 1975))) :=
  ⟨by decide,
    merge_people_unions
      [⟨"SMITH, John", some 3, some 1975, ["Director"], some "abc123"⟩,
       ⟨"John SMITH", some 3, some 1975, ["PSC"], none⟩]
      ("JOHN SMITH", some 3, some 1975)
      ⟨"SMITH, John", some 3, some 1975, ["Director", "PSC"], some "abc123"⟩
      (by decide)⟩

/-! String-processing helper lemmas for the name-normalizer claims. -/

theorem removeAllFuel_of_not_containsSub (pat : List Char) (fuel : Nat) :
    ∀ s : List Char, containsSub pat s = false → removeAllFuel pat fuel s = s := by
  induction fuel with
  | zero => intro s _; cases s <;> rfl
  | succ fuel ih =>
    intro s h
    cases s with
    | nil => rfl
    | cons c rest =>
      unfold containsSub at h
      simp only [Bool.or_eq_false_iff] at h
      unfold removeAllFuel
      rw [if_neg (fun hand => by
        have h2 := hand.2
        rw [h.1] at h2
        exact absurd h2 (by simp))]
      rw [ih rest h.2]

theorem removeAll_of_not_containsSub (pat : List Char) (s : List Char)
    (h : containsSub pat s = false) : removeAll pat s = s :=
  removeAllFuel_of_not_containsSub pat s.length s h

theorem fold_strip_id (ps : List (List Char)) (u : List Char)
    (h : ∀ p ∈ ps, containsSub (p ++ [' ']) u = false ∧
      containsSub (p ++ [',', ' ']) u = false) :
    ps.foldl (fun acc p =>
      removeAll (p ++ [',', ' ']) (removeAll (p ++ [' ']) acc)) u = u := by
  induction ps with
  | nil => rfl
  | cons p ps' ih =>
    simp only [List.foldl_cons]
    rw [removeAll_of_not_containsSub _ _ (h p (by simp)).1,
      removeAll_of_not_containsSub _ _ (h p (by simp)).2]
    exact ih (fun q hq => h q (by simp [hq]))

theorem strip_titles_clean (u : List Char) (h : cleanTitles u) :
    strip_titles u = u :=
  fold_strip_id namePrefixes u h

theorem splitOnChar_ne_nil (c : Char) (l : List Char) :
    splitOnChar c l ≠ [] := by
  cases l with
  | nil => simp [splitOnChar]
  | cons x xs =>
    unfold splitOnChar
    cases splitOnChar c xs with
    | nil => simp
    | cons h t => by_cases hx : x = c <;> simp [hx]

theorem splitOnChar_cons_eq (c : Char) (xs : List Char) (h : List Char)
    (t : List (List Char)) (hs : splitOnChar c xs = h :: t) :
    splitOnChar c (c :: xs) = [] :: h :: t := by
  unfold splitOnChar
  rw [hs]
  simp

theorem splitOnChar_cons_ne (c x : Char) (xs : List Char) (h : List Char)
    (t : List (List Char)) (hx : ¬x = c) (hs : splitOnChar c xs = h :: t) :
    splitOnChar c (x :: xs) = (x :: h) :: t := by
  unfold splitOnChar
  rw [hs]
  simp [hx]

theorem splitOnChar_length (c : Char) (l : List Char) :
    (splitOnChar c l).length = l.count c + 1 := by
  induction l with
  | nil => simp [splitOnChar]
  | cons x xs ih =>
    cases hs : splitOnChar c xs with
    | nil => exact absurd hs (splitOnChar_ne_nil c xs)
    | cons h t =>
      rw [hs] at ih
      by_cases hx : x = c
      · subst hx
        rw [splitOnChar_cons_eq x xs h t hs]
        simp [List.count_cons] at ih ⊢
        omega
      · rw [splitOnChar_cons_ne c x xs h t hx hs]
        simp [List.count_cons, hx] at ih ⊢
        omega

theorem splitOnChar_of_count_zero (c : Char) (l : List Char)
    (h : l.count c = 0) : splitOnChar c l = [l] := by
  induction l with
  | nil => rfl
  | cons x xs ih =>
    have hx : ¬x = c := by
      intro hh
      subst hh
      simp [List.count_cons] at h
    have hxs : xs.count c = 0 := by
      simp [List.count_cons, hx] at h
      exact h
    exact splitOnChar_cons_ne c x xs xs [] hx (ih hxs)

theorem splitOnChar_single (c : Char) (l : List Char) (h : l.count c = 1) :
    splitOnChar c l =
      [l.takeWhile (fun d => d != c), (l.dropWhile (fun d => d != c)).tail] := by
  induction l with
  | nil => simp [List.count_nil] at h
  | cons x xs ih =>
    by_cases hx : x = c
    · subst hx
      have hxs : xs.count x = 0 := by
        simp [List.count_cons] at h
        exact h
      rw [splitOnChar_cons_eq x xs xs []
        (splitOnChar_of_count_zero x xs hxs)]
      rw [List.takeWhile_cons, List.dropWhile_cons]
      simp
    · have hxs : xs.count c = 1 := by
        simp [List.count_cons, hx] at h
        exact h
      have hsplit := ih hxs
      rw [splitOnChar_cons_ne c x xs _ _ hx hsplit]
      have hbeq : (x != c) = true := by simp [hx]
      rw [List.takeWhile_cons, List.dropWhile_cons, hbeq]
      simp

theorem takeWhile_append_sep (c : Char) (l r : List Char)
    (h : l.count c = 0) :
    (l ++ c :: r).takeWhile (fun d => d != c) = l ∧
      (l ++ c :: r).dropWhile (fun d => d != c) = c :: r := by
  induction l with
  | nil =>
    constructor
    · rw [List.nil_append, List.takeWhile_cons]
      simp
    · rw [List.nil_append, List.dropWhile_cons]
      simp
  | cons x xs ih =>
    have hx : ¬x = c := by
      intro hh
      subst hh
      simp [List.count_cons] at h
    have hxs : xs.count c = 0 := by
      simp [List.count_cons, hx] at h
      exact h
    obtain ⟨iht, ihd⟩ := ih hxs
    have hbeq : (x != c) = true := by simp [hx]
    constructor
    · rw [List.cons_append, List.takeWhile_cons, hbeq]
      simp only [if_true, iht]
    · rw [List.cons_append, List.dropWhile_cons, hbeq]
      simp only [if_true, ihd]

theorem trimmed_strip (l : List Char) (h : trimmedStr l) : stripChars l = l := by
  unfold stripChars
  rw [h.1, h.2, List.reverse_reverse]

theorem nonspace_head_of_dropWhile (c : Char) (l : List Char)
    (h : (c :: l).dropWhile isSpChar = c :: l) : isSpChar c = false := by
  by_cases hc : isSpChar c = true
  · rw [List.dropWhile_cons, if_pos hc] at h
    have := length_dropWhile_le isSpChar l
    rw [h] at this
    simp at this
  · simpa using hc

theorem dropWhile_cons_nonspace (c : Char) (l : List Char)
    (h : isSpChar c = false) : (c :: l).dropWhile isSpChar = c :: l := by
  rw [List.dropWhile_cons, h]
  simp

theorem strip_space_cons (l : List Char) (h : trimmedStr l) :
    stripChars (' ' :: l) = l := by
  have hsp : isSpChar ' ' = true := rfl
  have hdw : List.dropWhile isSpChar (' ' :: l) = List.dropWhile isSpChar l := by
    rw [List.dropWhile_cons]
    simp [hsp]
  unfold stripChars
  rw [hdw, h.1, h.2, List.reverse_reverse]

theorem strip_mid_space (f s : List Char) (hft : trimmedStr f)
    (hst : trimmedStr s) (hfn : f ≠ []) (hsn : s ≠ []) :
    stripChars (f ++ ' ' :: s) = f ++ ' ' :: s := by
  apply trimmed_strip
  constructor
  · cases f with
    | nil => exact absurd rfl hfn
    | cons c f' =>
      have hc : isSpChar c = false := nonspace_head_of_dropWhile c f' hft.1
      rw [List.cons_append]
      exact dropWhile_cons_nonspace c _ hc
  · rw [List.reverse_append, List.reverse_cons]
    cases hrev : s.reverse with
    | nil =>
      exact absurd (by simpa using congrArg List.reverse hrev) hsn
    | cons d r' =>
      have hd : isSpChar d = false := by
        apply nonspace_head_of_dropWhile d r'
        rw [← hrev]
        exact hst.2
      rw [List.append_assoc, List.cons_append]
      exact dropWhile_cons_nonspace d _ hd

theorem pySplitWs_cons_sp (c : Char) (l : List Char) (h : isSpChar c = true) :
    pySplitWs (c :: l) = pySplitWs l := by
  simp [pySplitWs, h]

theorem pySplitWs_cons_cons_sp (c d : Char) (l : List Char)
    (hc : isSpChar c = false) (hd : isSpChar d = true) :
    pySplitWs (c :: d :: l) = [c] :: pySplitWs l := by
  conv_lhs => unfold pySplitWs
  rw [hc]
  simp only [Bool.false_eq_true, if_false, hd, if_true]
  rw [pySplitWs_cons_sp d l hd]

theorem pySplitWs_cons_cons_nsp (c d : Char) (l : List Char) (t : List Char)
    (ts : List (List Char)) (hc : isSpChar c = false) (hd : isSpChar d = false)
    (h : pySplitWs (d :: l) = t :: ts) :
    pySplitWs (c :: d :: l) = (c :: t) :: ts := by
  conv_lhs => unfold pySplitWs
  rw [hc]
  simp only [Bool.false_eq_true, if_false, hd, h]

theorem pySplitWs_ne_nil (d : Char) (l : List Char) (h : isSpChar d = false) :
    pySplitWs (d :: l) ≠ [] := by
  cases l with
  | nil =>
    unfold pySplitWs
    rw [h]
    simp
  | cons e l' =>
    by_cases he : isSpChar e = true
    · rw [pySplitWs_cons_cons_sp d e l' h he]
      simp
    · have hef : isSpChar e = false := by simpa using he
      cases hs : pySplitWs (e :: l') with
      | nil => exact absurd hs (pySplitWs_ne_nil e l' hef)
      | cons t ts =>
        rw [pySplitWs_cons_cons_nsp d e l' t ts h hef hs]
        simp

theorem pySplitWs_append (x y : List Char) :
    pySplitWs (x ++ ' ' :: y) = pySplitWs x ++ pySplitWs y := by
  induction x with
  | nil => rfl
  | cons c xs ih =>
    by_cases hc : isSpChar c = true
    · rw [List.cons_append, pySplitWs_cons_sp c _ hc, pySplitWs_cons_sp c _ hc,
        ih]
    · have hcf : isSpChar c = false := by simpa using hc
      cases xs with
      | nil =>
        have hsp : isSpChar ' ' = true := rfl
        rw [List.cons_append, List.nil_append,
          pySplitWs_cons_cons_sp c ' ' y hcf hsp]
        have h1 : pySplitWs [c] = [[c]] := by
          simp [pySplitWs, hcf]
        rw [h1]
        rfl
      | cons d xs' =>
        by_cases hd : isSpChar d = true
        · have hL : pySplitWs ((c :: d :: xs') ++ ' ' :: y) =
              [c] :: pySplitWs (xs' ++ ' ' :: y) := by
            rw [List.cons_append, List.cons_append]
            exact pySplitWs_cons_cons_sp c d _ hcf hd
          have hR : pySplitWs (c :: d :: xs') = [c] :: pySplitWs xs' :=
            pySplitWs_cons_cons_sp c d xs' hcf hd
          have ih' : pySplitWs (xs' ++ ' ' :: y) =
              pySplitWs xs' ++ pySplitWs y := by
            have h2 := ih
            rw [List.cons_append, pySplitWs_cons_sp d _ hd,
              pySplitWs_cons_sp d _ hd] at h2
            exact h2
          rw [hL, hR, ih', List.cons_append]
        · have hdf : isSpChar d = false := by simpa using hd
          cases hs : pySplitWs (d :: xs') with
          | nil => exact absurd hs (pySplitWs_ne_nil d xs' hdf)
          | cons t ts =>
            have ih' : pySplitWs (d :: (xs' ++ ' ' :: y)) =
                t :: (ts ++ pySplitWs y) := by
              have h2 := ih
              rw [hs] at h2
              rw [List.cons_append] at h2
              rw [h2, List.cons_append]
            have hL : pySplitWs ((c :: d :: xs') ++ ' ' :: y) =
                (c :: t) :: (ts ++ pySplitWs y) := by
              rw [List.cons_append, List.cons_append]
              exact pySplitWs_cons_cons_nsp c d _ _ _ hcf hdf ih'
            have hR : pySplitWs (c :: d :: xs') = (c :: t) :: ts :=
              pySplitWs_cons_cons_nsp c d xs' t ts hcf hdf hs
            rw [hL, hR, List.cons_append]

theorem string_data_append (x y : String) : (x ++ y).data = x.data ++ y.data := by
  cases x
  cases y
  rfl

theorem count_pos_mem (c : Char) (l : List Char) (h : 0 < l.count c) :
    c ∈ l := by
  by_contra hmem
  rw [List.count_eq_zero_of_not_mem hmem] at h
  omega

theorem mem_count_pos (c : Char) (l : List Char) (h : c ∈ l) :
    0 < l.count c := List.count_pos_iff.2 h

/-- C5 counterexample: the token AMR of the name Amr Khan merely contains the
prefix MR as a substring followed by a space, yet the substring-replacement
stripping mangles it: the output is AKHAN, not the intact AMR KHAN the claim
requires. -/
theorem format_name_substring_counterexample :
    format_name_proper_order "Amr Khan" = "AKHAN" ∧
      format_name_proper_order "Amr Khan" ≠ "AMR KHAN" := by
  constructor
  · decide
  · decide

/-- C5 amended: prefix stripping is substring replacement, removing each
occurrence of a prefix immediately followed by a space or by a comma and
space, even inside a larger token; a name containing no such occurrence is
left intact by the stripping, and on those names the function behaves as
specified for the comma logic: a string with exactly one comma is reordered
from surname-comma-forenames to forenames-space-surname with the parts
trimmed, and any other string is returned as the stripped uppercase string
trimmed.  A name whose prefixes appear only as standalone leading tokens is
still stripped correctly, as the concrete instance shows. -/
theorem format_name_strip_substring :
    (∀ name : String, cleanTitles (upperChars name.data) →
        format_name_proper_order name =
          String.mk (comma_reorder_spec (upperChars name.data))) ∧
      format_name_proper_order "MR SMITH, John" = "JOHN SMITH" := by
  constructor
  · intro name hclean
    simp only [format_name_proper_order, format_chars, comma_reorder_spec]
    rw [strip_titles_clean _ hclean]
    by_cases h1 : (upperChars name.data).count ',' = 1
    · rw [if_pos h1]
      have hmem : ',' ∈ upperChars name.data := count_pos_mem _ _ (by omega)
      have hcont : (upperChars name.data).contains ',' = true :=
        List.elem_iff.2 hmem
      rw [if_pos hcont, splitOnChar_single ',' _ h1]
    · rw [if_neg h1]
      by_cases hm : (upperChars name.data).contains ',' = true
      · rw [if_pos hm]
        have hmem : ',' ∈ upperChars name.data := List.elem_iff.1 hm
        have hpos : 0 < (upperChars name.data).count ',' :=
          mem_count_pos _ _ hmem
        have hlen := splitOnChar_length ',' (upperChars name.data)
        cases hsp : splitOnChar ',' (upperChars name.data) with
        | nil => exact absurd hsp (splitOnChar_ne_nil _ _)
        | cons p1 rest1 =>
          cases rest1 with
          | nil => rfl
          | cons p2 rest2 =>
            cases rest2 with
            | nil =>
              rw [hsp] at hlen
              simp only [List.length_cons, List.length_nil] at hlen
              omega
            | cons p3 rest3 => rfl
      · rw [if_neg hm]
  · decide

theorem format_name_strip_substring_witness :
    cleanTitles (upperChars ("SMITH, John Paul" : String).data) ∧
      format_name_proper_order "SMITH, John Paul" =
        String.mk (comma_reorder_spec
          (upperChars ("SMITH, John Paul" : String).data)) :=
  ⟨by decide, format_name_strip_substring.1 "SMITH, John Paul" (by decide)⟩

/-- C7 counterexample: the function uppercases its input, so the comma
round-trip of SMITH, John yields JOHN SMITH, not the mixed-case John SMITH
the claim asserts. -/
theorem format_round_trip_counterexample :
    format_name_proper_order "SMITH, John" = "JOHN SMITH" ∧
      format_name_proper_order "SMITH, John" ≠ "John SMITH" := by
  constructor
  · decide
  · decide

/-- C7 amended: for surname and forename parts free of commas, honorific
markers and edge whitespace, the comma form surname-comma-space-forenames is
reordered to forenames-space-surname in uppercase; concretely SMITH, John
becomes JOHN SMITH. -/
theorem format_round_trip_uppercased (f s : List Char)
    (hclean : cleanTitles (upperChars (s ++ [',', ' '] ++ f)))
    (hfc : (upperChars f).count ',' = 0) (hsc : (upperChars s).count ',' = 0)
    (hft : trimmedStr (upperChars f)) (hst : trimmedStr (upperChars s))
    (hfn : upperChars f ≠ []) (hsn : upperChars s ≠ []) :
    format_name_proper_order (String.mk (s ++ [',', ' '] ++ f)) =
      String.mk (upperChars f ++ ' ' :: upperChars s) := by
  have hu : upperChars ((s ++ [',', ' ']) ++ f) =
      upperChars s ++ ',' :: ' ' :: upperChars f := by
    unfold upperChars
    rw [List.map_append, List.map_append, List.append_assoc]
    rfl
  rw [show format_name_proper_order (String.mk ((s ++ [',', ' ']) ++ f)) =
      String.mk (format_chars ((s ++ [',', ' ']) ++ f)) from rfl]
  simp only [format_chars]
  rw [strip_titles_clean _ hclean, hu]
  have hc1 : ((',' : Char) == ',') = true := rfl
  have hc2 : ((' ' : Char) == ',') = false := rfl
  have hcnt : (upperChars s ++ ',' :: ' ' :: upperChars f).count ',' = 1 := by
    rw [List.count_append, List.count_cons, List.count_cons, hsc, hfc]
    simp [hc1, hc2]
  have hcont : (upperChars s ++ ',' :: ' ' :: upperChars f).contains ',' =
      true := by
    apply List.elem_iff.2
    simp
  rw [if_pos hcont]
  have hsplit : splitOnChar ',' (upperChars s ++ ',' :: ' ' :: upperChars f) =
      [upperChars s, ' ' :: upperChars f] := by
    rw [splitOnChar_single _ _ hcnt]
    obtain ⟨ht, hd⟩ := takeWhile_append_sep ',' (upperChars s)
      (' ' :: upperChars f) hsc
    rw [ht, hd]
    rfl
  rw [hsplit]
  show String.mk (stripChars (stripChars (' ' :: upperChars f) ++
      ' ' :: stripChars (upperChars s))) = _
  rw [strip_space_cons _ hft, trimmed_strip _ hst,
    strip_mid_space _ _ hft hst hfn hsn]

theorem format_round_trip_uppercased_witness :
    cleanTitles (upperChars (("SMITH" : String).data ++ [',', ' '] ++
        ("John" : String).data)) ∧
      (upperChars ("John" : String).data).count ',' = 0 ∧
      (upperChars ("SMITH" : String).data).count ',' = 0 ∧
      trimmedStr (upperChars ("John" : String).data) ∧
      trimmedStr (upperChars ("SMITH" : String).data) ∧
      upperChars ("John" : String).data ≠ [] ∧
      upperChars ("SMITH" : String).data ≠ [] ∧
      format_name_proper_order (String.mk (("SMITH" : String).data ++
          [',', ' '] ++ ("John" : String).data)) =
        String.mk (upperChars ("John" : String).data ++
          ' ' :: upperChars ("SMITH" : String).data) :=
  ⟨by decide, by decide, by decide, by decide, by decide, by decide, by decide,
    format_round_trip_uppercased ("John" : String).data
      ("SMITH" : String).data (by decide) (by decide) (by decide) (by decide)
      (by decide) (by decide) (by decide)⟩

theorem insertionSort_eq_of_perm (l l' : List (List Char)) (h : l.Perm l') :
    List.insertionSort (fun x y : List Char => x ≤ y) l =
      List.insertionSort (fun x y : List Char => x ≤ y) l' :=
  @List.eq_of_perm_of_sorted (List Char) (fun x y : List Char => x ≤ y)
    leListCharAntisymm _ _
    ((List.perm_insertionSort _ l).trans
      (h.trans (List.perm_insertionSort _ l').symm))
    (List.sorted_insertionSort _ l) (List.sorted_insertionSort _ l')

/-- C8: the identity key is insensitive to comma-based reordering: writing a
name as surname-comma-forename or as forename-space-surname produces the
same key, for every pair of parts, because commas become spaces, the tokens
are the same multiset either way, and sorting makes the order irrelevant;
concretely the two spellings of John Smith agree. -/
theorem normalize_key_comma_insensitive :
    (∀ a b : String,
        normalize_name (a ++ ", " ++ b) = normalize_name (b ++ " " ++ a)) ∧
      normalize_name "SMITH, John" = normalize_name "John SMITH" := by
  constructor
  · intro a b
    unfold normalize_name norm_tokens
    have hd1 : ((a ++ ", " ++ b)).data = a.data ++ [',', ' '] ++ b.data := by
      rw [string_data_append, string_data_append]
    have hd2 : ((b ++ " " ++ a)).data = b.data ++ [' '] ++ a.data := by
      rw [string_data_append, string_data_append]
    rw [hd1, hd2]
    have hmap1 : commaToSpace (upperChars ((a.data ++ [',', ' ']) ++ b.data)) =
        commaToSpace (upperChars a.data) ++
          ' ' :: ' ' :: commaToSpace (upperChars b.data) := by
      unfold upperChars commaToSpace
      rw [List.map_append, List.map_append, List.map_append, List.map_append,
        List.append_assoc]
      rfl
    have hmap2 : commaToSpace (upperChars ((b.data ++ [' ']) ++ a.data)) =
        commaToSpace (upperChars b.data) ++
          ' ' :: commaToSpace (upperChars a.data) := by
      unfold upperChars commaToSpace
      rw [List.map_append, List.map_append, List.map_append, List.map_append,
        List.append_assoc]
      rfl
    rw [hmap1, hmap2]
    rw [pySplitWs_append, pySplitWs_cons_sp ' ' _ rfl, pySplitWs_append]
    rw [List.filter_append, List.filter_append]
    congr 1
    congr 1
    apply insertionSort_eq_of_perm
    exact List.perm_append_comm
  · decide

/-! Lemmas about the SequenceMatcher embedding. -/

theorem klenF_le (a b : List Char) :
    ∀ (fuel ahi bhi i j : Nat), klenF a b fuel ahi bhi i j ≤ fuel := by
  intro fuel
  induction fuel with
  | zero => intro ahi bhi i j; simp [klenF]
  | succ fuel ih =>
    intro ahi bhi i j
    unfold klenF
    by_cases h : i < ahi ∧ j < bhi ∧ a[i]? = b[j]?
    · rw [if_pos h]
      exact Nat.add_le_add_right (ih ahi bhi (i + 1) (j + 1)) 1
    · rw [if_neg h]
      omega

theorem klen_le (a b : List Char) (ahi bhi i j : Nat) :
    klen a b ahi bhi i j ≤ ahi - i :=
  klenF_le a b (ahi - i) ahi bhi i j

theorem klenF_diag (a : List Char) (ahi : Nat) :
    ∀ (fuel i : Nat), fuel = ahi - i → klenF a a fuel ahi ahi i i = ahi - i := by
  intro fuel
  induction fuel with
  | zero =>
    intro i h
    simp [klenF]
    omega
  | succ fuel ih =>
    intro i h
    have hi : i < ahi := by omega
    unfold klenF
    rw [if_pos ⟨hi, hi, rfl⟩, ih (i + 1) (by omega)]
    omega

theorem klen_diag (a : List Char) (ahi i : Nat) :
    klen a a ahi ahi i i = ahi - i :=
  klenF_diag a ahi (ahi - i) i rfl

theorem foldl_max_init (f : Nat × Nat → Nat) :
    ∀ (l : List (Nat × Nat)) (init : Nat),
      init ≤ l.foldl (fun m c => max m (f c)) init := by
  intro l
  induction l with
  | nil => intro init; simp
  | cons c l' ih =>
    intro init
    simp only [List.foldl_cons]
    exact le_trans (le_max_left init (f c)) (ih (max init (f c)))

theorem foldl_max_le (f : Nat × Nat → Nat) (K : Nat) :
    ∀ (l : List (Nat × Nat)) (init : Nat), init ≤ K →
      (∀ c ∈ l, f c ≤ K) → l.foldl (fun m c => max m (f c)) init ≤ K := by
  intro l
  induction l with
  | nil => intro init h _; simpa using h
  | cons c l' ih =>
    intro init h hall
    simp only [List.foldl_cons]
    exact ih (max init (f c)) (max_le h (hall c (by simp)))
      (fun d hd => hall d (by simp [hd]))

theorem le_foldl_max (f : Nat × Nat → Nat) :
    ∀ (l : List (Nat × Nat)) (init : Nat) (c : Nat × Nat), c ∈ l →
      f c ≤ l.foldl (fun m c => max m (f c)) init := by
  intro l
  induction l with
  | nil => intro init c hc; simp at hc
  | cons d l' ih =>
    intro init c hc
    simp only [List.foldl_cons]
    rcases List.mem_cons.1 hc with rfl | hmem
    · exact le_trans (le_max_right init (f c)) (foldl_max_init f l' _)
    · exact ih _ c hmem

theorem matching_total_empty (a b : List Char) (fuel alo blo : Nat) :
    matching_total a b fuel alo alo blo blo = 0 := by
  cases fuel with
  | zero => rfl
  | succ f =>
    have hfl : find_longest_match a b alo alo blo blo = (alo, blo, 0) := by
      unfold find_longest_match
      have hc : fl_candidates alo alo blo blo = [] := by
        unfold fl_candidates
        simp
      rw [hc]
      rfl
    unfold matching_total
    rw [hfl]
    simp

set_option maxRecDepth 10000 in
/-- C6 counterexample: the greedy longest-match decomposition depends on the
argument order because ties among maximal blocks are broken by the earliest
start in the first argument: for abzcd versus wcdvabd the forward ratio is
one half and the reversed ratio is one third. -/
theorem similarity_not_symmetric_counterexample :
    name_similarity "abzcd" "wcdvabd" ≠ name_similarity "wcdvabd" "abzcd" := by
  have l1 : (upperChars ("abzcd" : String).data).length = 5 := by decide
  have l2 : (upperChars ("wcdvabd" : String).data).length = 7 := by decide
  have e1 : matching_total (upperChars ("abzcd" : String).data)
      (upperChars ("wcdvabd" : String).data) 13 0 5 0 7 = 3 := by decide
  have e2 : matching_total (upperChars ("wcdvabd" : String).data)
      (upperChars ("abzcd" : String).data) 13 0 7 0 5 = 2 := by decide
  unfold name_similarity sequence_ratio
  rw [l1, l2]
  norm_num
  rw [e1, e2]
  norm_num

/-- C6 amended: the similarity score of any non-empty name with itself is
exactly one, since the whole string is its own longest matching block; the
score is not symmetric in general, as the counterexample shows, so only the
reflexivity half of the claim survives. -/
theorem similarity_self (x : String) (hx : x ≠ "") :
    name_similarity x x = 1 := by
  have hne : upperChars x.data ≠ [] := by
    intro h
    apply hx
    unfold upperChars at h
    rw [List.map_eq_nil_iff] at h
    cases x with
    | mk d => simp at h; rw [h]
  set u := upperChars x.data with hu
  have hpos : 0 < u.length := List.length_pos.2 hne
  obtain ⟨m, hm⟩ : ∃ m, u.length = m + 1 := ⟨u.length - 1, by omega⟩
  have hcand : ∃ t, fl_candidates 0 u.length 0 u.length = (0, 0) :: t := by
    unfold fl_candidates
    rw [Nat.sub_zero, hm, List.range'_succ, List.flatMap_cons, List.map_cons,
      List.cons_append]
    exact ⟨_, rfl⟩
  obtain ⟨t, ht⟩ := hcand
  have h00 : klen u u u.length u.length 0 0 = u.length := by
    rw [klen_diag]
    omega
  have hbest : best_size u u 0 u.length 0 u.length = u.length := by
    unfold best_size
    apply le_antisymm
    · apply foldl_max_le
      · omega
      · intro c _
        calc klen u u u.length u.length c.1 c.2 ≤ u.length - c.1 :=
              klen_le u u u.length u.length c.1 c.2
          _ ≤ u.length := by omega
    · have hmem : (0, 0) ∈ fl_candidates 0 u.length 0 u.length := by
        rw [ht]
        simp
      calc u.length = klen u u u.length u.length 0 0 := h00.symm
        _ ≤ _ := le_foldl_max (fun c => klen u u u.length u.length c.1 c.2)
            (fl_candidates 0 u.length 0 u.length) 0 (0, 0) hmem
  have hflm : find_longest_match u u 0 u.length 0 u.length =
      (0, 0, u.length) := by
    unfold find_longest_match
    rw [hbest, ht, List.find?_cons]
    have hb : (klen u u u.length u.length 0 0 == u.length) = true := by
      rw [h00]
      simp
    rw [hb]
  have hmt : matching_total u u (u.length + u.length + 1) 0 u.length 0
      u.length = u.length := by
    unfold matching_total
    rw [hflm]
    have hnz : ¬(0, 0, u.length).2.2 = 0 := by
      simpa using (by omega : ¬u.length = 0)
    rw [if_neg hnz]
    norm_num [matching_total_empty]
  unfold name_similarity sequence_ratio
  rw [← hu, hmt]
  rw [if_neg (by omega : ¬u.length + u.length = 0)]
  have hq : ((u.length : ℚ) + u.length) ≠ 0 := by
    have : (u.length : ℚ) ≠ 0 := Nat.cast_ne_zero.2 (by omega)
    intro hcontra
    apply this
    linarith
  rw [div_eq_one_iff_eq hq]
  ring

theorem similarity_self_witness :
    ("JOHN SMITH" : String) ≠ "" ∧
      name_similarity "JOHN SMITH" "JOHN SMITH" = 1 :=
  ⟨by decide, similarity_self "JOHN SMITH" (by decide)⟩

end Checker
